import Mathlib

/-!
Verification of the HashThePlanet ingestion core against its specification.

The development shallowly embeds the Python sources under
`src/hashtheplanet/`:
  * `sql/db_connector.py`   — the persistent store (`DbConnector`) and its three
    tables, modelled as insertion-ordered lists of rows;
  * `resources/git_resource.py` — the git ingestion pipeline (`GitResource`);
  * `resources/npm_resource.py` — the npm ingestion pipeline (`NpmResource`);
  * `resources/resource.py` — the shared `Resource.should_save` filter.

Modelling conventions:
  * SQLAlchemy tables are lists of row structures kept in storage (insertion)
    order.  Note the `version` table declares its own `rowid` column, which
    shadows SQLite's implicit rowid and is never assigned, so `ORDER BY rowid
    ASC` sorts by a key that is NULL on every row and guarantees no order; the
    admissible result orders of `get_versions` are modelled explicitly by
    `admissibleGetVersions`, and `getVersions` itself fixes the engine's
    choice to storage order — a choice relied on only where the order is
    immaterial (emptiness, length, membership).
  * The JSON round-trip `loads(JSONEncoder().encode({"versions": vs}))` is the
    identity on the version list, so the `versions` column is a `List String`.
  * SHA-256 (`Hash.hash_bytes`) and `re.search` are opaque to the model and are
    passed in as function parameters; file contents are `String`s.
  * Python's positional-call discipline is modelled explicitly for
    `insert_or_update_hash`: a call site supplies a list of `PyVal` arguments
    and the callee checks the arity that the Python interpreter would check,
    raising `TypeError` on a mismatch.  Exceptions are `Except PyError`;
    `session_scope` commits on success and rolls back on an exception
    (`runSession`).
-/

namespace HTP

/-- PyVal models a Python value passed positionally to a database method:
either a string or a list of strings. -/
inductive PyVal where
  | str (s : String)
  | strList (l : List String)
deriving Repr, DecidableEq

/-- PyError models the Python exceptions the embedded code can raise. -/
inductive PyError where
  | typeError (msg : String)
  | valueError (msg : String)
  | indexError (msg : String)
deriving Repr, DecidableEq

/-- Row of the `version` table (class `Version` in sql/db_connector.py): the
user-declared `rowid` integer column — which shadows SQLite's implicit rowid
and which no code path ever assigns, so it is NULL (`none`) on every stored
row — then technology and version label, primary key (technology, version). -/
structure VersionRow where
  rowid : Option Nat
  technology : String
  version : String
deriving Repr, DecidableEq

/-- Row of the `file` table (class `File` in sql/db_connector.py):
technology and path, primary key (technology, path). -/
structure FileRow where
  technology : String
  path : String
deriving Repr, DecidableEq

/-- Row of the `hash` table (class `Hash` in sql/db_connector.py): digest
(primary key), file name, technology, and the JSON-decoded version list. -/
structure HashRow where
  hash : String
  file : String
  technology : String
  versions : List String
deriving Repr, DecidableEq

/-- The whole store: the three tables, each as a list of rows in storage
(insertion) order. -/
structure DB where
  versionRows : List VersionRow
  fileRows : List FileRow
  hashRows : List HashRow
deriving Repr, DecidableEq

/-- The store created by `Base.metadata.create_all`: three empty tables. -/
def emptyDB : DB := ⟨[], [], []⟩

/-- DbConnector.insert_version: select by (technology, version); insert a new
row only when no row exists.  `str(version)` is already applied by callers in
this model, so the argument is a `String`. -/
def insertVersion (db : DB) (technology version : String) : DB :=
  if db.versionRows.any (fun r => r.technology == technology && r.version == version) then
    db
  else
    { db with versionRows := db.versionRows ++ [⟨none, technology, version⟩] }

/-- DbConnector.insert_versions: insert each version of the list in order. -/
def insertVersions (db : DB) (technology : String) (versions : List String) : DB :=
  versions.foldl (fun d v => insertVersion d technology v) db

/-- DbConnector.get_versions: `SELECT version FROM version WHERE technology = ?
ORDER BY rowid ASC`.  The ORDER BY key is the table's user-declared `rowid`
column, NULL on every row, so the query guarantees no order (see
`admissibleGetVersions` for the faithful characterization); this function
returns the admissible result in storage order, a choice the theorems below
rely on only where the order is immaterial (emptiness, length, membership). -/
def getVersions (db : DB) (technology : String) : List String :=
  (db.versionRows.filter (fun r => r.technology == technology)).map (fun r => r.version)

/-- DbConnector.insert_file: select by (technology, path); insert a new row
only when no row exists. -/
def insertFile (db : DB) (technology path : String) : DB :=
  if db.fileRows.any (fun r => r.technology == technology && r.path == path) then
    db
  else
    { db with fileRows := db.fileRows ++ [⟨technology, path⟩] }

/-- The version-list merge performed by DbConnector.insert_or_update_hash on an
existing row: each supplied label is appended unless already present (the
membership test runs against the growing list, mirroring the Python loop). -/
def mergeVersions (existing versions : List String) : List String :=
  versions.foldl (fun acc v => if v ∈ acc then acc else acc ++ [v]) existing

/-- DbConnector.insert_or_update_hash (body, with all five parameters bound):
select the row keyed by `hashValue`; if absent insert a fresh row carrying
`fileName`, `technology` and `versions`; if present rewrite every row with that
digest to carry the merged version list, leaving file and technology alone. -/
def insertOrUpdateHash (db : DB) (fileName hashValue technology : String)
    (versions : List String) : DB :=
  match db.hashRows.find? (fun r => r.hash == hashValue) with
  | none =>
      { db with hashRows := db.hashRows ++ [⟨hashValue, fileName, technology, versions⟩] }
  | some entry =>
      { db with hashRows :=
          db.hashRows.map (fun r =>
            if r.hash == hashValue then
              { r with versions := mergeVersions entry.versions versions }
            else r) }

/-- Message of the TypeError the Python interpreter raises when
insert_or_update_hash is called with one positional argument too few. -/
def iouhMissingArgMsg : String :=
  "insert_or_update_hash() missing 1 required positional argument: versions"

/-- A positional call to DbConnector.insert_or_update_hash.  After `session`,
the Python signature requires four arguments (file_name, hash_value,
technology, versions); any other argument list raises a TypeError before the
body runs, exactly as the interpreter does. -/
def callInsertOrUpdateHash (db : DB) (args : List PyVal) : Except PyError DB :=
  match args with
  | [PyVal.str fileName, PyVal.str hashValue, PyVal.str technology, PyVal.strList versions] =>
      Except.ok (insertOrUpdateHash db fileName hashValue technology versions)
  | _ => Except.error (PyError.typeError iouhMissingArgMsg)

/-- DbConnector.find_hash: first row with the given digest, projected to
(technology, versions); `None` when no row matches. -/
def findHash (db : DB) (h : String) : Option (String × List String) :=
  (db.hashRows.find? (fun r => r.hash == h)).map (fun r => (r.technology, r.versions))

/-- Versions column of the row stored for a digest, if any. -/
def hashVersionsOf (db : DB) (h : String) : Option (List String) :=
  (db.hashRows.find? (fun r => r.hash == h)).map (fun r => r.versions)

/-- The transactional `session_scope` of core/hashtheplanet.py: commit the new
store on success, roll back to the old store when an exception escapes. -/
def runSession (db : DB) (r : Except PyError DB) : DB :=
  match r with
  | Except.ok db2 => db2
  | Except.error _ => db

/-- Resource.should_save (resources/resource.py).  `file_path` and
`exclude_regex` are optional strings; Python truthiness makes `None` and `""`
falsy.  `re.search` is opaque and passed in as `reSearch`. -/
def shouldSave (reSearch : String → String → Bool)
    (excludeRegex filePath : Option String) : Bool :=
  match filePath with
  | none => false
  | some p =>
      if p == "" then false
      else
        match excludeRegex with
        | none => true
        | some rx => if rx == "" then true else !(reSearch rx p)

/-- A git tag as the pipeline sees it: GitPython's `TagReference`, of which
only `name` is consulted (`str(tag)` equals `tag.name` for references). -/
structure GitTagM where
  name : String
deriving Repr, DecidableEq, Inhabited

/-- A git tree or diff blob: path, file mode and object id (`hexsha`). -/
structure BlobM where
  path : String
  mode : Nat
  hexsha : String
deriving Repr, DecidableEq

/-- One entry of a GitPython `DiffIndex`: the blob on the a side (old commit)
and on the b side (new commit), either of which may be absent. -/
structure DiffM where
  a_blob : Option BlobM
  b_blob : Option BlobM
deriving Repr, DecidableEq

/-- stat.S_ISDIR: mode bits 0o170000 equal 0o040000. -/
def S_ISDIR (mode : Nat) : Bool := mode &&& 61440 == 16384

/-- stat.S_ISREG: mode bits 0o170000 equal 0o100000. -/
def S_ISREG (mode : Nat) : Bool := mode &&& 61440 == 32768

/-- The data a cloned repository provides to the pipeline: its tag list in
commit-time order, the tree blobs of a tag's commit, the diff index between
two tags' commits, and `git cat-file -p` on a blob id (`none` models a failing
subprocess). -/
structure GitRepoM where
  tags : List GitTagM
  tree : GitTagM → List BlobM
  diffIdx : GitTagM → GitTagM → List DiffM
  catFile : String → Option String

/-- GitResource.get_all_files_from_commit: every non-directory blob of the
commit tree as (path, hexsha). -/
def getAllFilesFromCommit (blobs : List BlobM) : List (String × String) :=
  (blobs.filter (fun b => !(S_ISDIR b.mode))).map (fun b => (b.path, b.hexsha))

/-- GitResource._get_tag_files: the commit's files tagged with the tag name. -/
def getTagFiles (repo : GitRepoM) (tag : GitTagM) : List (String × String × String) :=
  (getAllFilesFromCommit (repo.tree tag)).map (fun pb => (pb.1, tag.name, pb.2))

/-- The records one diff entry contributes in
GitResource._get_changes_between_two_tags: the a-side blob when it exists and
is a regular file, else the b-side blob when it exists and is a regular file,
else nothing. -/
def diffEntryFiles (label : String) (d : DiffM) : List (String × String × String) :=
  if d.a_blob.any (fun ab => S_ISREG ab.mode) then
    match d.a_blob with
    | some ab => [(ab.path, label, ab.hexsha)]
    | none => []
  else if d.b_blob.any (fun bb => S_ISREG bb.mode) then
    match d.b_blob with
    | some bb => [(bb.path, label, bb.hexsha)]
    | none => []
  else []

/-- GitResource._get_changes_between_two_tags: fold over the diff index of the
two tags' commits, appending each entry's records; every record carries the
name of the later tag `tagB`. -/
def getChangesBetweenTwoTags (tagA tagB : GitTagM)
    (diffOf : GitTagM → GitTagM → List DiffM) : List (String × String × String) :=
  (diffOf tagA tagB).foldl (fun files d => files ++ diffEntryFiles tagB.name d) []

/-- GitResource._get_diff_files: changes of every consecutive tag pair,
`zip(tags[:-1], tags[1:])`. -/
def getDiffFiles (repo : GitRepoM) (tags : List GitTagM) : List (String × String × String) :=
  (tags.dropLast.zip (tags.drop 1)).foldl
    (fun files pr => files ++ getChangesBetweenTwoTags pr.1 pr.2 repo.diffIdx) []

/-- GitResource._hash_files: resolve each blob through `git cat-file -p`, skip
resolution failures and empty content, and digest the exact bytes with
`Hash.hash_bytes` (SHA-256, abstracted as `hashFn`). -/
def hashFiles (hashFn : String → String) (catFile : String → Option String)
    (files : List (String × String × String)) : List (String × String × String) :=
  files.foldl (fun acc f =>
    match catFile f.2.2 with
    | none => acc
    | some content =>
        if content.length == 0 then acc else acc ++ [(f.1, f.2.1, hashFn content)]) []

/-- Python `list.index`: position of the first occurrence, `none` when the
element is missing (where Python raises ValueError). -/
def pyListIndex : List String → String → Option Nat
  | [], _ => none
  | y :: ys, x => if y == x then some 0 else (pyListIndex ys x).map (· + 1)

/-- GitResource._get_diff_versions:
`tag_names[tag_names.index(first):tag_names.index(last)]` — the tag names from
`firstVersion` inclusive up to `lastVersion` exclusive; ValueError when either
label is not a tag name. -/
def getDiffVersions (firstVersion lastVersion : String) (tags : List GitTagM) :
    Except PyError (List String) :=
  let tagNames := tags.map (fun t => t.name)
  match pyListIndex tagNames firstVersion, pyListIndex tagNames lastVersion with
  | some i, some j => Except.ok ((tagNames.drop i).take (j - i))
  | _, _ => Except.error (PyError.valueError "is not in list")

/-- Loop body of GitResource._save_hashes over `files_info`.  `record` is the
`file_record` dict (path to (last tag, last digest)), modelled as an
association list whose most recent binding shadows older ones.  Both upserts
are positional calls with four arguments after `session` missing the fifth
required one, exactly as in the source. -/
def gitSaveLoop (technology : String) (tags : List GitTagM) (db : DB)
    (record : List (String × String × String)) :
    List (String × String × String) → Except PyError DB
  | [] => Except.ok db
  | f :: rest =>
      let path := f.1
      let tagName := f.2.1
      let fileHash := f.2.2
      let last := (record.find? (fun r => r.1 == path)).map (fun r => r.2)
      let db1 := insertFile db technology path
      let afterBackfill : Except PyError DB :=
        match last with
        | some lv =>
            match getDiffVersions lv.1 tagName tags with
            | Except.error e => Except.error e
            | Except.ok versions =>
                callInsertOrUpdateHash db1
                  [PyVal.str lv.2, PyVal.str technology, PyVal.strList versions]
        | none => Except.ok db1
      match afterBackfill with
      | Except.error e => Except.error e
      | Except.ok db2 =>
          match callInsertOrUpdateHash db2
              [PyVal.str fileHash, PyVal.str technology, PyVal.strList [tagName]] with
          | Except.error e => Except.error e
          | Except.ok db3 =>
              gitSaveLoop technology tags db3 ((path, tagName, fileHash) :: record) rest

/-- GitResource._save_hashes: one session inserting the version rows for the
(filtered) tag list — `str(tag)` is `tag.name` — then running the per-file
loop with an initially empty `file_record`. -/
def gitSaveHashes (db : DB) (filesInfo : List (String × String × String))
    (tags : List GitTagM) (technology : String) : Except PyError DB :=
  gitSaveLoop technology tags
    (insertVersions db technology (tags.map (fun t => t.name))) [] filesInfo

/-- The divergence test of GitResource._filter_stored_tags at index `i`:
`i >= len(stored) or found[i].name != stored[i]` (the second test only runs
when `i` is in range, so the out-of-range default never matters). -/
def isDivergent (stored : List String) (i : Nat) (t : GitTagM) : Bool :=
  decide (stored.length ≤ i) || t.name != stored.getD i ""

/-- The `enumerate(found_tags)` loop of GitResource._filter_stored_tags:
collect each divergent tag, prepending `found[i-1]` when the first divergent
tag has a predecessor and nothing was collected yet. -/
def filterTagsLoop (stored : List String) (found : List GitTagM) (i : Nat)
    (result : List GitTagM) : List GitTagM → List GitTagM
  | [] => result
  | t :: rest =>
      if isDivergent stored i t then
        let result1 :=
          if 1 ≤ i ∧ result = [] then result ++ [found.getD (i - 1) default] else result
        filterTagsLoop stored found (i + 1) (result1 ++ [t]) rest
      else
        filterTagsLoop stored found (i + 1) result rest

/-- GitResource._filter_stored_tags: empty when the stored and found lists
have equal length, otherwise the enumerate loop over `found`. -/
def filterStoredTags (stored : List String) (found : List GitTagM) : List GitTagM :=
  if stored.length = found.length then []
  else filterTagsLoop stored found 0 [] found

/-- GitResource.compute_hashes after a successful clone: read the stored
versions, take the full first-tag tree when none are stored (`tags[0]` raises
IndexError on a repository without tags), filter the tags, diff consecutive
pairs, hash the changed blobs and save.  The clone itself, the temporary
directory and the derivation of `technology` from the URL are outside the
model; note the method accepts no exclusion pattern. -/
def computeHashes (repo : GitRepoM) (hashFn : String → String) (db : DB)
    (technology : String) : Except PyError DB :=
  let tags := repo.tags
  let storedTags := getVersions db technology
  let files0 : Except PyError (List (String × String × String)) :=
    if storedTags.isEmpty then
      match tags.head? with
      | none => Except.error (PyError.indexError "list index out of range")
      | some t0 => Except.ok (getTagFiles repo t0)
    else Except.ok []
  match files0 with
  | Except.error e => Except.error e
  | Except.ok fs0 =>
      let tags2 := filterStoredTags storedTags tags
      let files := fs0 ++ getDiffFiles repo tags2
      let filesInfo := hashFiles hashFn repo.catFile files
      gitSaveHashes db filesInfo tags2 technology

/-- Inner loop of NpmResource._save_hashes over one version's files: insert
the file row, then the positional upsert with four arguments after `session`
missing the fifth required one, exactly as in the source. -/
def npmSaveFiles (db : DB) (moduleName version : String) :
    List (String × String) → Except PyError DB
  | [] => Except.ok db
  | f :: rest =>
      let db1 := insertFile db moduleName f.1
      match callInsertOrUpdateHash db1
          [PyVal.str f.2, PyVal.str moduleName, PyVal.strList [version]] with
      | Except.error e => Except.error e
      | Except.ok db2 => npmSaveFiles db2 moduleName version rest

/-- Outer loop of NpmResource._save_hashes over `files_info.items()`. -/
def npmSaveItems (db : DB) (moduleName : String) :
    List (String × List (String × String)) → Except PyError DB
  | [] => Except.ok db
  | vf :: rest =>
      match npmSaveFiles db moduleName vf.1 vf.2 with
      | Except.error e => Except.error e
      | Except.ok db2 => npmSaveItems db2 moduleName rest

/-- NpmResource._save_hashes: one session inserting the module's version rows
and then every version's (path, digest) pairs. -/
def npmSaveHashes (db : DB) (filesInfo : List (String × List (String × String)))
    (versions : List String) (moduleName : String) : Except PyError DB :=
  npmSaveItems (insertVersions db moduleName versions) moduleName filesInfo

/-!  Reference definitions written from the specification's words, to be
compared with the definitions translated from the source. -/

/-- First divergent tag of `found` (walked from index `i`) together with its
index, following the spec's definition of divergence. -/
def firstDivergent (stored : List String) : Nat → List GitTagM → Option (Nat × GitTagM)
  | _, [] => none
  | i, t :: rest =>
      if isDivergent stored i t then some (i, t) else firstDivergent stored (i + 1) rest

/-- All divergent tags of `found` (walked from index `i`), in order. -/
def divergentsFrom (stored : List String) : Nat → List GitTagM → List GitTagM
  | _, [] => []
  | i, t :: rest =>
      if isDivergent stored i t then t :: divergentsFrom stored (i + 1) rest
      else divergentsFrom stored (i + 1) rest

/-- The TagCatchUp contract as the spec states it: the empty list when the
two lists have equal length; otherwise every divergent tag of `found` in
order, preceded by the predecessor `found[i0 - 1]` exactly once when the
first divergent index `i0` has a predecessor. -/
def filterStoredTagsSpec (stored : List String) (found : List GitTagM) : List GitTagM :=
  if stored.length = found.length then []
  else
    match firstDivergent stored 0 found with
    | none => []
    | some it =>
        (if 1 ≤ it.1 then [found.getD (it.1 - 1) default] else []) ++
          divergentsFrom stored 0 found

/-- One call of the merge algorithm on the hash table: the four data arguments
of DbConnector.insert_or_update_hash. -/
structure HashOp where
  file : String
  hashValue : String
  technology : String
  versions : List String
deriving Repr, DecidableEq

/-- A sequence of insert_or_update_hash calls applied in order. -/
def applyHashOps (db : DB) (ops : List HashOp) : DB :=
  ops.foldl (fun d op => insertOrUpdateHash d op.file op.hashValue op.technology op.versions) db

/-- What the merge algorithm accumulates for digest `h` in one step: a first
sighting creates (technology, versions); later sightings merge the labels and
keep the stored technology. -/
def mergeStep (h : String) (acc : Option (String × List String)) (op : HashOp) :
    Option (String × List String) :=
  if op.hashValue == h then
    match acc with
    | none => some (op.technology, op.versions)
    | some tv => some (tv.1, mergeVersions tv.2 op.versions)
  else acc

/-- Technology and version set accumulated for digest `h` by a sequence of
merge calls, per the spec's merge algorithm. -/
def mergeAccum (ops : List HashOp) (h : String) : Option (String × List String) :=
  ops.foldl (mergeStep h) none

/-- A sequence of DbConnector.insert_version calls, each a
(technology, version) pair, applied in order. -/
def applyVersionInserts (db : DB) (ops : List (String × String)) : DB :=
  ops.foldl (fun d pr => insertVersion d pr.1 pr.2) db

/-- The labels of a list in first-occurrence order: each label kept at the
position of its first appearance, later repeats dropped — the spec's
"first-insertion order". -/
def firstOccurrence (l : List String) : List String :=
  l.foldl (fun acc v => if v ∈ acc then acc else acc ++ [v]) []

/-- SQLite comparison of two rowid sort keys: NULL orders before any
integer. -/
def rowidLe : Option Nat → Option Nat → Bool
  | none, _ => true
  | some _, none => false
  | some a, some b => decide (a ≤ b)

/-- Faithful semantics of get_versions' ORDER BY clause: the engine may
return any reordering of the filtered rows that is sorted by the rowid
column.  Because the declared rowid column (db_connector.py:27) shadows
SQLite's implicit rowid and insert_version never assigns it, the sort key is
NULL on every row and the constraint is vacuous, so the query guarantees no
particular order.  A label list is an admissible result when it projects some
such reordering. -/
def admissibleGetVersions (db : DB) (technology : String)
    (result : List String) : Prop :=
  ∃ rows : List VersionRow,
    rows.Perm (db.versionRows.filter (fun r => r.technology == technology))
    ∧ rows.Pairwise (fun a b => rowidLe a.rowid b.rowid = true)
    ∧ result = rows.map (fun r => r.version)

/-- Code-point lexicographic comparison of two character lists, the order of
TEXT values in an SQLite index. -/
def charsLe : List Char → List Char → Bool
  | [], _ => true
  | _ :: _, [] => false
  | a :: as, b :: bs =>
      if a.toNat < b.toNat then true
      else if b.toNat < a.toNat then false
      else charsLe as bs

/-- Lexicographic comparison of two TEXT values. -/
def strLeB (a b : String) : Bool := charsLe a.data b.data

/-- The realistic engine order for get_versions: the automatic
(technology, version) primary-key index serves the WHERE clause, so within a
technology the rows come back version-lexicographically. -/
def getVersionsByIndex (db : DB) (technology : String) : List String :=
  List.insertionSort (fun a b => strLeB a b = true) (getVersions db technology)

/-!  Concrete inputs for counterexamples and failing-input evaluations. -/

/-- The hashed change records of the spec's backfill scenario, in processing
order. -/
def c1Files : List (String × String × String) :=
  [("LICENSE", "1.2.3", "h1"), ("setup.cfg", "1.2.3", "h2"),
   ("setup.cfg", "1.2.4", "h3"), ("LICENSE", "1.2.5", "h4")]

/-- The full ordered tag list of the backfill scenario. -/
def c1Tags : List GitTagM := [⟨"1.2.3"⟩, ⟨"1.2.4"⟩, ⟨"1.2.5"⟩]

/-- insert_or_update_hash at the four-argument call shape
(session, hash_value, technology, versions) that every caller in
resources/git_resource.py and resources/npm_resource.py and every test in
tests/sql/test_db_connector.py uses; the body is the source body with no
file_name bound (the file column is left empty on first insert). -/
def insertOrUpdateHash4 (db : DB) (hashValue technology : String)
    (versions : List String) : DB :=
  insertOrUpdateHash db "" hashValue technology versions

/-- The _save_hashes loop with the upserts at the four-argument call shape its
callers and the repository's tests use; used to check the claimed version
sets against the merge the loop performs once the arity slip is repaired. -/
def gitSaveLoopFixed (technology : String) (tags : List GitTagM) (db : DB)
    (record : List (String × String × String)) :
    List (String × String × String) → Except PyError DB
  | [] => Except.ok db
  | f :: rest =>
      let path := f.1
      let tagName := f.2.1
      let fileHash := f.2.2
      let last := (record.find? (fun r => r.1 == path)).map (fun r => r.2)
      let db1 := insertFile db technology path
      let afterBackfill : Except PyError DB :=
        match last with
        | some lv =>
            match getDiffVersions lv.1 tagName tags with
            | Except.error e => Except.error e
            | Except.ok versions => Except.ok (insertOrUpdateHash4 db1 lv.2 technology versions)
        | none => Except.ok db1
      match afterBackfill with
      | Except.error e => Except.error e
      | Except.ok db2 =>
          gitSaveLoopFixed technology tags
            (insertOrUpdateHash4 db2 fileHash technology [tagName])
            ((path, tagName, fileHash) :: record) rest

/-- _save_hashes with the upsert arity repaired, as `gitSaveLoopFixed`. -/
def gitSaveHashesFixed (db : DB) (filesInfo : List (String × String × String))
    (tags : List GitTagM) (technology : String) : Except PyError DB :=
  gitSaveLoopFixed technology tags
    (insertVersions db technology (tags.map (fun t => t.name))) [] filesInfo

/-- A diff entry for a file deleted between the two tags: an a-side regular
blob and no b-side blob. -/
def c3DelEntry : DiffM :=
  ⟨some ⟨"gone.txt", 33188, "sha-old"⟩, none⟩

/-- A diff entry for a file modified between the two tags: regular blobs on
both sides, with distinct object ids. -/
def c3ModEntry : DiffM :=
  ⟨some ⟨"mod.txt", 33188, "sha-a"⟩, some ⟨"mod.txt", 33188, "sha-b"⟩⟩

/-- A diff index holding the deletion and the modification. -/
def c3DiffOf : GitTagM → GitTagM → List DiffM := fun _ _ => [c3DelEntry, c3ModEntry]

/-- Stand-in digest function for concrete runs (SHA-256 is opaque to the
model). -/
def demoHash (content : String) : String := String.append "digest-of:" content

/-- Repository for the exclusion-filter scenario: two tags, with `test.php`
added between them with non-empty content. -/
def c5Repo : GitRepoM where
  tags := [⟨"1.0"⟩, ⟨"1.1"⟩]
  tree := fun _ => []
  diffIdx := fun _ _ => [⟨none, some ⟨"test.php", 33188, "blob1"⟩⟩]
  catFile := fun b => if b == "blob1" then some "php content" else none

/-- Store in which version 1.0 of foobar is already ingested. -/
def c5DB : DB := insertVersion emptyDB "foobar" "1.0"

/-- Resolver for the exclusion-filter scenario, also used standalone. -/
def c5Cat : String → Option String := fun b => if b == "blob1" then some "php content" else none

/-- Repository with a single tag and no content, for the idempotence
witness. -/
def c7Repo : GitRepoM where
  tags := [⟨"1.0"⟩]
  tree := fun _ => []
  diffIdx := fun _ _ => []
  catFile := fun _ => none

/-- Store that already holds the single tag of `c7Repo` for technology t. -/
def c7DB : DB := insertVersion emptyDB "t" "1.0"

/-- A stored hash row used to instantiate the merge frame condition. -/
def c6Row : HashRow := ⟨"hh", "f.js", "jQuery", ["1.0"]⟩

/-- Store holding exactly the row `c6Row`. -/
def c6DB : DB := ⟨[], [], [c6Row]⟩

/-!  List helper lemmas. -/

theorem find?_append_of_some {α : Type} (p : α → Bool) :
    ∀ (l1 l2 : List α) (a : α), l1.find? p = some a → (l1 ++ l2).find? p = some a
  | [], _, _, h => by simp [List.find?] at h
  | x :: xs, l2, a, h => by
      by_cases hx : p x
      · rw [List.find?_cons_of_pos _ hx] at h
        simpa [List.cons_append, List.find?_cons_of_pos _ hx] using h
      · rw [List.find?_cons_of_neg _ hx] at h
        rw [List.cons_append, List.find?_cons_of_neg _ hx]
        exact find?_append_of_some p xs l2 a h

theorem find?_append_of_none {α : Type} (p : α → Bool) :
    ∀ (l1 l2 : List α), l1.find? p = none → (l1 ++ l2).find? p = l2.find? p
  | [], _, _ => by simp
  | x :: xs, l2, h => by
      by_cases hx : p x
      · rw [List.find?_cons_of_pos _ hx] at h
        exact absurd h (by simp)
      · rw [List.find?_cons_of_neg _ hx] at h
        rw [List.cons_append, List.find?_cons_of_neg _ hx]
        exact find?_append_of_none p xs l2 h

theorem find?_map_pred {α : Type} (g : α → α) (p : α → Bool)
    (hg : ∀ a, p (g a) = p a) :
    ∀ l : List α, (l.map g).find? p = (l.find? p).map g
  | [] => rfl
  | x :: xs => by
      by_cases hx : p x
      · rw [List.map_cons, List.find?_cons_of_pos _ ((hg x).trans (by simp [hx])),
          List.find?_cons_of_pos _ hx]
        rfl
      · rw [List.map_cons, List.find?_cons_of_neg _ (by simp [hg x, hx]),
          List.find?_cons_of_neg _ hx]
        exact find?_map_pred g p hg xs

theorem find?_of_filter_singleton {α : Type} (p : α → Bool) :
    ∀ (l : List α) (a : α), l.filter p = [a] → l.find? p = some a
  | [], _, h => by simp at h
  | x :: xs, a, h => by
      by_cases hx : p x
      · rw [List.filter_cons_of_pos hx] at h
        obtain ⟨h1, _⟩ := List.cons_eq_cons.mp h
        rw [List.find?_cons_of_pos _ hx, h1]
      · rw [List.filter_cons_of_neg hx] at h
        rw [List.find?_cons_of_neg _ hx]
        exact find?_of_filter_singleton p xs a h

theorem foldl_append_bind {α β : Type} (g : α → List β) :
    ∀ (l : List α) (acc : List β),
      l.foldl (fun fs d => fs ++ g d) acc = acc ++ l.flatMap g
  | [], acc => by simp
  | x :: xs, acc => by
      rw [List.foldl_cons, foldl_append_bind g xs (acc ++ g x), List.flatMap_cons,
        List.append_assoc]

/-!  mergeVersions lemmas. -/

theorem mergeVersions_cons (existing : List String) (w : String) (ws : List String) :
    mergeVersions existing (w :: ws)
      = mergeVersions (if w ∈ existing then existing else existing ++ [w]) ws := rfl

theorem mem_mergeVersions (v : String) :
    ∀ (vs existing : List String),
      v ∈ mergeVersions existing vs ↔ v ∈ existing ∨ v ∈ vs
  | [], existing => by simp [mergeVersions]
  | w :: ws, existing => by
      rw [mergeVersions_cons]
      by_cases hw : w ∈ existing
      · rw [if_pos hw, mem_mergeVersions v ws existing]
        simp only [List.mem_cons]
        constructor
        · rintro (h | h)
          · exact Or.inl h
          · exact Or.inr (Or.inr h)
        · rintro (h | h | h)
          · exact Or.inl h
          · exact Or.inl (h ▸ hw)
          · exact Or.inr h
      · rw [if_neg hw, mem_mergeVersions v ws (existing ++ [w])]
        simp only [List.mem_append, List.mem_singleton, List.mem_cons]
        tauto

theorem count_mergeVersions (v : String) :
    ∀ (vs existing : List String), v ∈ existing →
      (mergeVersions existing vs).count v = existing.count v
  | [], _, _ => rfl
  | w :: ws, existing, h => by
      rw [mergeVersions_cons]
      by_cases hw : w ∈ existing
      · rw [if_pos hw]
        exact count_mergeVersions v ws existing h
      · rw [if_neg hw]
        have h2 : v ∈ existing ++ [w] := List.mem_append_left _ h
        rw [count_mergeVersions v ws (existing ++ [w]) h2, List.count_append]
        have hvw : v ∉ [w] := by
          intro hvw
          exact hw ((List.mem_singleton.mp hvw) ▸ h)
        rw [List.count_eq_zero.mpr hvw, Nat.add_zero]

theorem mergeVersions_extends :
    ∀ (vs existing : List String), ∃ tail, mergeVersions existing vs = existing ++ tail
  | [], existing => ⟨[], by simp [mergeVersions]⟩
  | w :: ws, existing => by
      rw [mergeVersions_cons]
      by_cases hw : w ∈ existing
      · rw [if_pos hw]
        exact mergeVersions_extends ws existing
      · rw [if_neg hw]
        obtain ⟨t, ht⟩ := mergeVersions_extends ws (existing ++ [w])
        exact ⟨w :: t, by rw [ht, List.append_assoc]; rfl⟩

/-- C10: should_save rejects a missing or empty path whatever the exclusion
regex is, and accepts every non-empty path when no exclusion regex is
configured. -/
theorem c10_should_save_empty_and_default (reSearch : String → String → Bool)
    (excludeRegex : Option String) (p : String) :
    shouldSave reSearch excludeRegex none = false
    ∧ shouldSave reSearch excludeRegex (some "") = false
    ∧ (p ≠ "" → shouldSave reSearch none (some p) = true) := by
  refine ⟨rfl, rfl, fun hp => ?_⟩
  have hb : (p == "") = false := beq_eq_false_iff_ne.mpr hp
  simp [shouldSave, hb]

/-- Closed instance of the should_save theorem at path a.js and a configured
pattern. -/
theorem c10_should_save_witness :
    shouldSave (fun _ _ => true) (some ".php") none = false
    ∧ shouldSave (fun _ _ => true) (some ".php") (some "") = false
    ∧ shouldSave (fun _ _ => true) none (some "a.js") = true := by
  obtain ⟨h1, h2, h3⟩ :=
    c10_should_save_empty_and_default (fun _ _ => true) (some ".php") "a.js"
  exact ⟨h1, h2, h3 (by decide)⟩

/-- C6: when the store holds exactly one row for a digest, a further
insert_or_update_hash call with that digest rewrites only that row's version
list — merging in exactly the supplied labels not already present and never
re-adding a present one — and leaves its technology and file fields, the other
hash rows, and the version and file tables unchanged, whatever technology
argument the call supplies. -/
theorem c6_hash_merge_frame (db : DB) (fileName hashValue technology : String)
    (versions : List String) (row : HashRow)
    (hrow : db.hashRows.filter (fun r => r.hash == hashValue) = [row]) :
    (insertOrUpdateHash db fileName hashValue technology versions).hashRows
        = db.hashRows.map (fun r =>
            if r.hash == hashValue then
              { r with versions := mergeVersions row.versions versions }
            else r)
    ∧ (insertOrUpdateHash db fileName hashValue technology versions).versionRows
        = db.versionRows
    ∧ (insertOrUpdateHash db fileName hashValue technology versions).fileRows
        = db.fileRows
    ∧ (∀ v, v ∈ mergeVersions row.versions versions ↔ v ∈ row.versions ∨ v ∈ versions)
    ∧ (∀ v, v ∈ row.versions →
        (mergeVersions row.versions versions).count v = row.versions.count v)
    ∧ ∃ tail, mergeVersions row.versions versions = row.versions ++ tail := by
  have hfind : db.hashRows.find? (fun r => r.hash == hashValue) = some row :=
    find?_of_filter_singleton _ _ _ hrow
  refine ⟨?_, ?_, ?_, fun v => mem_mergeVersions v versions row.versions,
    fun v hv => count_mergeVersions v versions row.versions hv,
    mergeVersions_extends versions row.versions⟩
  · simp [insertOrUpdateHash, hfind]
  · simp [insertOrUpdateHash, hfind]
  · simp [insertOrUpdateHash, hfind]

/-- Closed instance of the merge frame condition: updating the stored digest
under a different technology only extends the version list. -/
theorem c6_hash_merge_frame_witness :
    (insertOrUpdateHash c6DB "g.js" "hh" "Lodash" ["1.0", "2.0"]).hashRows
      = c6DB.hashRows.map (fun r =>
          if r.hash == "hh" then
            { r with versions := mergeVersions c6Row.versions ["1.0", "2.0"] }
          else r) :=
  (c6_hash_merge_frame c6DB "g.js" "hh" "Lodash" ["1.0", "2.0"] c6Row (by decide)).1

/-!  The insert_or_update_hash arity mismatch. -/

theorem npmSaveFiles_err (db : DB) (moduleName version p h : String)
    (rest : List (String × String)) :
    npmSaveFiles db moduleName version ((p, h) :: rest)
      = Except.error (PyError.typeError iouhMissingArgMsg) := rfl

theorem npmSaveItems_err :
    ∀ (filesInfo : List (String × List (String × String))) (db : DB) (moduleName : String),
      filesInfo.any (fun vf => !vf.2.isEmpty) = true →
      npmSaveItems db moduleName filesInfo
        = Except.error (PyError.typeError iouhMissingArgMsg)
  | [], _, _, h => by simp at h
  | (v, []) :: rest, db, m, h => by
      have hrest : rest.any (fun vf => !vf.2.isEmpty) = true := by
        simpa using h
      show npmSaveItems db m rest = _
      exact npmSaveItems_err rest db m hrest
  | (v, f :: fs) :: rest, db, m, _ => rfl

/-- C4: _save_hashes in both resources calls insert_or_update_hash with four
positional arguments where its signature requires five, so on every non-empty
hashed-change list it raises TypeError at the first hash upsert, and the
session rollback leaves the store exactly as it was — no Hash row is persisted
through either ingestion path. -/
theorem c4_upsert_arity_type_error :
    (∀ (db : DB) (p tn fh : String) (rest : List (String × String × String))
        (tags : List GitTagM) (technology : String),
      gitSaveHashes db ((p, tn, fh) :: rest) tags technology
          = Except.error (PyError.typeError iouhMissingArgMsg)
      ∧ runSession db (gitSaveHashes db ((p, tn, fh) :: rest) tags technology) = db)
    ∧ (∀ (db : DB) (filesInfo : List (String × List (String × String)))
        (versions : List String) (moduleName : String),
      filesInfo.any (fun vf => !vf.2.isEmpty) = true →
      npmSaveHashes db filesInfo versions moduleName
          = Except.error (PyError.typeError iouhMissingArgMsg)
      ∧ runSession db (npmSaveHashes db filesInfo versions moduleName) = db) := by
  constructor
  · intro db p tn fh rest tags technology
    exact ⟨rfl, rfl⟩
  · intro db filesInfo versions moduleName hne
    have h := npmSaveItems_err filesInfo
      (insertVersions db moduleName versions) moduleName hne
    refine ⟨h, ?_⟩
    show runSession db (npmSaveItems (insertVersions db moduleName versions)
      moduleName filesInfo) = db
    rw [h]
    rfl

/-- Closed instance of the arity TypeError on both ingestion paths. -/
theorem c4_upsert_arity_witness :
    gitSaveHashes emptyDB [("a", "1.0", "d1")] [] "tech"
        = Except.error (PyError.typeError iouhMissingArgMsg)
    ∧ npmSaveHashes emptyDB [("1.0", [("f", "d2")])] ["1.0"] "mod"
        = Except.error (PyError.typeError iouhMissingArgMsg) :=
  ⟨(c4_upsert_arity_type_error.1 emptyDB "a" "1.0" "d1" [] [] "tech").1,
   (c4_upsert_arity_type_error.2 emptyDB [("1.0", [("f", "d2")])] ["1.0"] "mod"
      (by decide)).1⟩

/-- C1: on the backfill scenario the shipped _save_hashes raises TypeError at
its first hash upsert and, after rollback, persists nothing; run with the
upsert at the four-argument shape its callers and the repository's own tests
use, the loop produces exactly the claimed version sets for h1..h4. -/
theorem c1_backfill_scenario :
    gitSaveHashes emptyDB c1Files c1Tags "foobar"
        = Except.error (PyError.typeError iouhMissingArgMsg)
    ∧ runSession emptyDB (gitSaveHashes emptyDB c1Files c1Tags "foobar") = emptyDB
    ∧ hashVersionsOf
        (runSession emptyDB (gitSaveHashesFixed emptyDB c1Files c1Tags "foobar"))
        "h1" = some ["1.2.3", "1.2.4"]
    ∧ hashVersionsOf
        (runSession emptyDB (gitSaveHashesFixed emptyDB c1Files c1Tags "foobar"))
        "h2" = some ["1.2.3"]
    ∧ hashVersionsOf
        (runSession emptyDB (gitSaveHashesFixed emptyDB c1Files c1Tags "foobar"))
        "h3" = some ["1.2.4"]
    ∧ hashVersionsOf
        (runSession emptyDB (gitSaveHashesFixed emptyDB c1Files c1Tags "foobar"))
        "h4" = some ["1.2.5"] :=
  ⟨rfl, rfl, rfl, rfl, rfl, rfl⟩

/-- C5: no exclusion filtering happens in the pipeline: _hash_files digests
the excluded path test.php like any other file, and compute_hashes (which
accepts no exclusion pattern) carries the record through to the save phase,
where the independent arity bug then aborts the run. -/
theorem c5_excluded_path_hashed :
    hashFiles demoHash c5Cat [("test.php", "1.1", "blob1")]
        = [("test.php", "1.1", demoHash "php content")]
    ∧ computeHashes c5Repo demoHash c5DB "foobar"
        = Except.error (PyError.typeError iouhMissingArgMsg) :=
  ⟨rfl, rfl⟩

/-- C3 counterexample: between two tags, the diff entry of a file present only
in the earlier tag (no b-side blob) is still emitted, and a modified file is
emitted with the earlier tag's blob id sha-a rather than the later content
sha-b — both contradicting the claim. -/
theorem c3_deletion_and_old_blob_emitted :
    c3DelEntry.b_blob = none
    ∧ c3ModEntry.a_blob = some ⟨"mod.txt", 33188, "sha-a"⟩
    ∧ c3ModEntry.b_blob = some ⟨"mod.txt", 33188, "sha-b"⟩
    ∧ getChangesBetweenTwoTags ⟨"1.0"⟩ ⟨"1.1"⟩ c3DiffOf
        = [("gone.txt", "1.1", "sha-old"), ("mod.txt", "1.1", "sha-a")] :=
  ⟨rfl, rfl, rfl, rfl⟩

theorem mem_diffEntryFiles (label : String) (d : DiffM) (rec : String × String × String) :
    rec ∈ diffEntryFiles label d ↔
      (∃ ab, d.a_blob = some ab ∧ S_ISREG ab.mode = true
          ∧ rec = (ab.path, label, ab.hexsha))
      ∨ ((∀ ab, d.a_blob = some ab → S_ISREG ab.mode = false)
          ∧ ∃ bb, d.b_blob = some bb ∧ S_ISREG bb.mode = true
              ∧ rec = (bb.path, label, bb.hexsha)) := by
  obtain ⟨a, b⟩ := d
  cases a with
  | none =>
      cases b with
      | none => simp [diffEntryFiles, Option.any]
      | some bb =>
          by_cases hbb : S_ISREG bb.mode <;>
            simp [diffEntryFiles, Option.any, hbb]
  | some ab =>
      cases b with
      | none =>
          by_cases hab : S_ISREG ab.mode <;>
            simp [diffEntryFiles, Option.any, hab]
      | some bb =>
          by_cases hab : S_ISREG ab.mode <;> by_cases hbb : S_ISREG bb.mode <;>
            simp [diffEntryFiles, Option.any, hab, hbb]

/-- C3 amended: a record is emitted for the pair (tagA, tagB) exactly when
some diff entry between their commits yields it — the a-side blob when it is a
regular file (so modified and deleted files carry the earlier tag's content
id), otherwise the b-side blob when it is a regular file (additions); every
record carries tagB's name. -/
theorem c3_changes_characterization (tagA tagB : GitTagM)
    (diffOf : GitTagM → GitTagM → List DiffM) (rec : String × String × String) :
    rec ∈ getChangesBetweenTwoTags tagA tagB diffOf ↔
      ∃ d ∈ diffOf tagA tagB,
        (∃ ab, d.a_blob = some ab ∧ S_ISREG ab.mode = true
            ∧ rec = (ab.path, tagB.name, ab.hexsha))
        ∨ ((∀ ab, d.a_blob = some ab → S_ISREG ab.mode = false)
            ∧ ∃ bb, d.b_blob = some bb ∧ S_ISREG bb.mode = true
                ∧ rec = (bb.path, tagB.name, bb.hexsha)) := by
  unfold getChangesBetweenTwoTags
  rw [foldl_append_bind]
  simp only [List.nil_append, List.mem_flatMap, mem_diffEntryFiles]

/-!  TagCatchUp: equivalence of the enumerate loop with the contract. -/

theorem filterTagsLoop_nonempty (stored : List String) (found : List GitTagM) :
    ∀ (rest : List GitTagM) (i : Nat) (result : List GitTagM), result ≠ [] →
      filterTagsLoop stored found i result rest
        = result ++ divergentsFrom stored i rest
  | [], i, result, _ => by simp [filterTagsLoop, divergentsFrom]
  | t :: rest, i, result, hres => by
      by_cases hd : isDivergent stored i t
      · have hin : ¬(1 ≤ i ∧ result = []) := fun hc => hres hc.2
        simp only [filterTagsLoop, if_pos hd, if_neg hin]
        rw [filterTagsLoop_nonempty stored found rest (i + 1) (result ++ [t])
            (by simp)]
        simp [divergentsFrom, if_pos hd]
      · simp only [filterTagsLoop, if_neg hd]
        rw [filterTagsLoop_nonempty stored found rest (i + 1) result hres]
        simp [divergentsFrom, if_neg hd]

theorem filterTagsLoop_from_empty (stored : List String) (found : List GitTagM) :
    ∀ (rest : List GitTagM) (i : Nat),
      filterTagsLoop stored found i [] rest
        = match firstDivergent stored i rest with
          | none => []
          | some it =>
              (if 1 ≤ it.1 then [found.getD (it.1 - 1) default] else [])
                ++ divergentsFrom stored i rest
  | [], i => by simp [filterTagsLoop, firstDivergent]
  | t :: rest, i => by
      by_cases hd : isDivergent stored i t
      · simp only [filterTagsLoop, if_pos hd, and_true, List.nil_append]
        rw [filterTagsLoop_nonempty stored found rest (i + 1)
            ((if 1 ≤ i then [found.getD (i - 1) default] else []) ++ [t]) (by simp)]
        simp only [firstDivergent, if_pos hd, divergentsFrom]
        by_cases hi : 1 ≤ i <;> simp [hi]
      · simp only [filterTagsLoop, if_neg hd]
        rw [filterTagsLoop_from_empty stored found rest (i + 1)]
        simp only [firstDivergent, if_neg hd, divergentsFrom]

/-- C2: _filter_stored_tags meets the TagCatchUp contract for every pair of
label lists: empty when the lists have equal length, otherwise exactly the
divergent tags of found in order, with the predecessor of the first divergent
index prepended exactly once when it exists; in particular
stored = [A,B,D,E], found = [A,B,C,D,E] yields [B,C,D,E]. -/
theorem c2_filter_stored_tags_contract :
    (∀ (stored : List String) (found : List GitTagM),
      filterStoredTags stored found = filterStoredTagsSpec stored found)
    ∧ filterStoredTags ["A", "B", "D", "E"] [⟨"A"⟩, ⟨"B"⟩, ⟨"C"⟩, ⟨"D"⟩, ⟨"E"⟩]
        = [⟨"B"⟩, ⟨"C"⟩, ⟨"D"⟩, ⟨"E"⟩] := by
  refine ⟨fun stored found => ?_, rfl⟩
  unfold filterStoredTags filterStoredTagsSpec
  by_cases hlen : stored.length = found.length
  · rw [if_pos hlen, if_pos hlen]
  · rw [if_neg hlen, if_neg hlen, filterTagsLoop_from_empty stored found found 0]

/-!  Idempotence of a catch-up run over an unchanged tag list. -/

/-- C7: when the store already holds versions for the technology and their
number equals the number of tags found in the repository — in particular after
an ingestion run of an unchanged source — compute_hashes filters every tag
out, diffs nothing, hashes nothing, and returns the store exactly as it was:
no new Version, File or Hash row and no version-set change. -/
theorem c7_second_run_unchanged (repo : GitRepoM) (hashFn : String → String)
    (db : DB) (technology : String)
    (hne : getVersions db technology ≠ [])
    (hlen : (getVersions db technology).length = repo.tags.length) :
    computeHashes repo hashFn db technology = Except.ok db := by
  have hisEmpty : (getVersions db technology).isEmpty = false := by
    cases h : getVersions db technology with
    | nil => exact absurd h hne
    | cons a l => rfl
  have hfil : filterStoredTags (getVersions db technology) repo.tags = [] := by
    unfold filterStoredTags
    rw [if_pos hlen]
  simp only [computeHashes, hisEmpty, Bool.false_eq_true, if_false, hfil]
  rfl

/-- Closed instance of the unchanged-source run: one stored tag, one found
tag, nothing happens. -/
theorem c7_second_run_witness :
    computeHashes c7Repo demoHash c7DB "t" = Except.ok c7DB :=
  c7_second_run_unchanged c7Repo demoHash c7DB "t" (by decide) (by decide)

/-!  Lookup round-trip: findHash after a sequence of merge calls. -/

theorem findHash_upsert (db : DB) (op : HashOp) (h : String) :
    findHash (insertOrUpdateHash db op.file op.hashValue op.technology op.versions) h
      = mergeStep h (findHash db h) op := by
  obtain ⟨f, hv, t, vs⟩ := op
  simp only
  unfold insertOrUpdateHash
  cases e : db.hashRows.find? (fun r => r.hash == hv) with
  | none =>
      by_cases hh : hv = h
      · subst hh
        unfold findHash mergeStep
        rw [e, find?_append_of_none _ _ _ e]
        simp [List.find?]
      · have hne : (hv == h) = false := beq_eq_false_iff_ne.mpr hh
        unfold findHash mergeStep
        simp only [hne, Bool.false_eq_true, if_false]
        cases e2 : db.hashRows.find? (fun r => r.hash == h) with
        | none =>
            rw [find?_append_of_none _ _ _ e2]
            simp [List.find?, hne]
        | some r => rw [find?_append_of_some _ _ _ _ e2]
  | some entry =>
      have hgp : ∀ x : String, ∀ r : HashRow,
          ((if r.hash == hv then
              { r with versions := mergeVersions entry.versions vs } else r).hash == x)
            = (r.hash == x) := by
        intro x r
        by_cases hr : (r.hash == hv) = true <;> simp [hr]
      by_cases hh : hv = h
      · subst hh
        have hent := List.find?_some e
        unfold findHash mergeStep
        simp only [if_pos rfl]
        rw [find?_map_pred _ _ (hgp hv), e]
        simp [hent, e]
        simp [eq_of_beq hent]
      · have hne : (hv == h) = false := beq_eq_false_iff_ne.mpr hh
        unfold findHash mergeStep
        simp only [hne, Bool.false_eq_true, if_false]
        rw [find?_map_pred _ _ (hgp h)]
        cases e2 : db.hashRows.find? (fun r => r.hash == h) with
        | none => simp
        | some r =>
            have hr := List.find?_some e2
            have hrhv : (r.hash == hv) = false := by
              have hrh : r.hash = h := eq_of_beq hr
              exact beq_eq_false_iff_ne.mpr (fun e3 => hh (hrh ▸ e3).symm)
            simp [hrhv, ne_of_beq_false hrhv]

theorem applyHashOps_foldl (h : String) :
    ∀ (ops : List HashOp) (db : DB),
      findHash (applyHashOps db ops) h = ops.foldl (mergeStep h) (findHash db h)
  | [], _ => rfl
  | op :: ops, db => by
      show findHash (applyHashOps
        (insertOrUpdateHash db op.file op.hashValue op.technology op.versions) ops) h = _
      rw [applyHashOps_foldl h ops _, findHash_upsert, List.foldl_cons]

theorem foldl_mergeStep_some (h : String) :
    ∀ (ops : List HashOp) (tv : String × List String),
      ops.foldl (mergeStep h) (some tv) ≠ none
  | [], _ => by simp
  | op :: ops, tv => by
      rw [List.foldl_cons]
      unfold mergeStep
      by_cases hh : (op.hashValue == h) = true
      · rw [if_pos hh]
        exact foldl_mergeStep_some h ops _
      · rw [if_neg hh]
        exact foldl_mergeStep_some h ops tv

theorem mergeAccum_none_iff (ops : List HashOp) (h : String) :
    mergeAccum ops h = none ↔ ∀ op ∈ ops, op.hashValue ≠ h := by
  unfold mergeAccum
  induction ops with
  | nil => simp
  | cons op ops ih =>
      rw [List.foldl_cons]
      by_cases hh : (op.hashValue == h) = true
      · have heq : op.hashValue = h := eq_of_beq hh
        have hsome : mergeStep h none op = some (op.technology, op.versions) := by
          unfold mergeStep
          rw [if_pos hh]
        rw [hsome]
        constructor
        · intro hc
          exact absurd hc (foldl_mergeStep_some h ops _)
        · intro hall
          exact absurd heq (hall op (List.mem_cons_self op ops))
      · have hnone : mergeStep h none op = none := by
          unfold mergeStep
          rw [if_neg hh]
        have hne : op.hashValue ≠ h := by
          intro e
          exact hh (beq_iff_eq.mpr e)
        rw [hnone, ih, List.forall_mem_cons]
        simp [hne]

/-- C8: after any sequence of insert_or_update_hash merge calls on an empty
store, find_hash returns, for every digest, exactly the technology of the
digest's first call together with the version list the merge algorithm
accumulated for it — and it returns no row precisely for the digests no call
ever inserted. -/
theorem c8_find_hash_roundtrip (ops : List HashOp) (h : String) :
    findHash (applyHashOps emptyDB ops) h = mergeAccum ops h
    ∧ (mergeAccum ops h = none ↔ ∀ op ∈ ops, op.hashValue ≠ h) :=
  ⟨by rw [applyHashOps_foldl h ops emptyDB]; rfl, mergeAccum_none_iff ops h⟩

/-!  Version rows are returned in first-insertion order. -/

theorem any_versionRow_iff (db : DB) (tech v : String) :
    (db.versionRows.any (fun r => r.technology == tech && r.version == v)) = true
      ↔ v ∈ getVersions db tech := by
  unfold getVersions
  simp only [List.any_eq_true, Bool.and_eq_true, beq_iff_eq, List.mem_map,
    List.mem_filter]
  constructor
  · rintro ⟨r, hr, ht, hv⟩
    exact ⟨r, ⟨hr, ht⟩, hv⟩
  · rintro ⟨r, ⟨hr, ht⟩, hv⟩
    exact ⟨r, hr, ht, hv⟩

theorem getVersions_insertVersion_ne (db : DB) (t0 v t : String) (hne : t0 ≠ t) :
    getVersions (insertVersion db t0 v) t = getVersions db t := by
  unfold insertVersion
  by_cases hany : (db.versionRows.any
      (fun r => r.technology == t0 && r.version == v)) = true
  · rw [if_pos hany]
  · rw [if_neg hany]
    show getVersions ⟨db.versionRows ++ [⟨none, t0, v⟩], db.fileRows, db.hashRows⟩ t
      = getVersions db t
    unfold getVersions
    have hf : ((⟨none, t0, v⟩ : VersionRow).technology == t) = false :=
      beq_eq_false_iff_ne.mpr hne
    simp [List.filter_append, hf]

theorem insertVersion_of_mem (db : DB) (t0 v : String)
    (hmem : v ∈ getVersions db t0) : insertVersion db t0 v = db := by
  unfold insertVersion
  rw [if_pos ((any_versionRow_iff db t0 v).mpr hmem)]

theorem getVersions_insertVersion_new (db : DB) (t0 v : String)
    (hmem : v ∉ getVersions db t0) :
    getVersions (insertVersion db t0 v) t0 = getVersions db t0 ++ [v] := by
  unfold insertVersion
  rw [if_neg (fun hc => hmem ((any_versionRow_iff db t0 v).mp hc))]
  show getVersions ⟨db.versionRows ++ [⟨none, t0, v⟩], db.fileRows, db.hashRows⟩ t0
    = getVersions db t0 ++ [v]
  unfold getVersions
  simp [List.filter_append]

theorem applyVersionInserts_getVersions (t : String) :
    ∀ (ops : List (String × String)) (db : DB),
      getVersions (applyVersionInserts db ops) t
        = ((ops.filter (fun pr => pr.1 == t)).map (fun pr => pr.2)).foldl
            (fun acc v => if v ∈ acc then acc else acc ++ [v]) (getVersions db t)
  | [], _ => rfl
  | (t0, v) :: ops, db => by
      show getVersions (applyVersionInserts (insertVersion db t0 v) ops) t = _
      rw [applyVersionInserts_getVersions t ops (insertVersion db t0 v)]
      by_cases ht : t0 = t
      · subst ht
        have hcons : ((t0, v) :: ops).filter (fun pr => pr.1 == t0)
            = (t0, v) :: ops.filter (fun pr => pr.1 == t0) :=
          List.filter_cons_of_pos (by simp)
        rw [hcons, List.map_cons, List.foldl_cons]
        by_cases hv : v ∈ getVersions db t0
        · rw [insertVersion_of_mem db t0 v hv, if_pos hv]
        · rw [getVersions_insertVersion_new db t0 v hv, if_neg hv]
      · have hdrop : ((t0, v) :: ops).filter (fun pr => pr.1 == t)
            = ops.filter (fun pr => pr.1 == t) :=
          List.filter_cons_of_neg (by simp [beq_eq_false_iff_ne.mpr ht])
        rw [hdrop, getVersions_insertVersion_ne db t0 v t ht]

theorem versionRows_rowid_none :
    ∀ (ops : List (String × String)) (db : DB),
      (∀ r ∈ db.versionRows, r.rowid = none) →
      ∀ r ∈ (applyVersionInserts db ops).versionRows, r.rowid = none
  | [], _, hdb => hdb
  | (t0, v) :: ops, db, hdb => by
      refine versionRows_rowid_none ops (insertVersion db t0 v) ?_
      intro r hr
      unfold insertVersion at hr
      by_cases hany : (db.versionRows.any
          (fun r => r.technology == t0 && r.version == v)) = true
      · rw [if_pos hany] at hr
        exact hdb r hr
      · rw [if_neg hany] at hr
        simp only [List.mem_append, List.mem_singleton] at hr
        rcases hr with hr | hr
        · exact hdb r hr
        · rw [hr]

theorem pairwise_rowidLe_of_none (l : List VersionRow)
    (h : ∀ r ∈ l, r.rowid = none) :
    l.Pairwise (fun a b => rowidLe a.rowid b.rowid = true) := by
  induction l with
  | nil => exact List.Pairwise.nil
  | cons a l ih =>
      refine List.Pairwise.cons (fun b hb => ?_)
        (ih (fun r hr => h r (List.mem_cons_of_mem a hr)))
      rw [h a (List.mem_cons_self a l), h b (List.mem_cons_of_mem a hb)]
      rfl

theorem filter_rows_embed (t : String) :
    ∀ l : List VersionRow, (∀ r ∈ l, r.rowid = none) →
      l.filter (fun r => r.technology == t)
        = ((l.filter (fun r => r.technology == t)).map (fun r => r.version)).map
            (fun v => (⟨none, t, v⟩ : VersionRow))
  | [], _ => rfl
  | r :: l, h => by
      have hr0 : r.rowid = none := h r (List.mem_cons_self r l)
      have hrest : ∀ x ∈ l, x.rowid = none :=
        fun x hx => h x (List.mem_cons_of_mem r hx)
      by_cases ht : (r.technology == t) = true
      · have hcons : (r :: l).filter (fun x => x.technology == t)
            = r :: l.filter (fun x => x.technology == t) :=
          List.filter_cons_of_pos ht
        rw [hcons, List.map_cons, List.map_cons, ← filter_rows_embed t l hrest]
        congr 1
        have hfields : (⟨r.rowid, r.technology, r.version⟩ : VersionRow)
            = ⟨none, t, r.version⟩ := by
          rw [hr0, eq_of_beq ht]
        exact hfields
      · have hcons : (r :: l).filter (fun x => x.technology == t)
            = l.filter (fun x => x.technology == t) :=
          List.filter_cons_of_neg ht
        rw [hcons]
        exact filter_rows_embed t l hrest

theorem admissible_iff_perm (db : DB) (t : String)
    (hnone : ∀ r ∈ db.versionRows, r.rowid = none) (result : List String) :
    admissibleGetVersions db t result ↔ result.Perm (getVersions db t) := by
  constructor
  · rintro ⟨rows, hperm, _, hres⟩
    rw [hres]
    exact hperm.map (fun r => r.version)
  · intro hperm
    refine ⟨result.map (fun v => ⟨none, t, v⟩), ?_, ?_, ?_⟩
    · have he := filter_rows_embed t db.versionRows hnone
      rw [he]
      exact hperm.map (fun v => (⟨none, t, v⟩ : VersionRow))
    · refine pairwise_rowidLe_of_none _ (fun r hr => ?_)
      simp only [List.mem_map] at hr
      obtain ⟨v, _, rfl⟩ := hr
      rfl
    · rw [List.map_map,
        show ((fun r : VersionRow => r.version) ∘ fun v => (⟨none, t, v⟩ : VersionRow))
            = id from rfl,
        List.map_id]

/-- C9 counterexample: insert 2.0 then 1.0 for technology t, so first-insertion
order is [2.0, 1.0]; every stored row's rowid sort key is NULL, so the
alphabetically resorted result [1.0, 2.0] is an admissible outcome of
get_versions' ORDER BY — and is the one the primary-key-index plan returns —
refuting that get_versions returns first-insertion order and never an
alphabetical resort. -/
theorem c9_alphabetical_result_admissible :
    getVersions (applyVersionInserts emptyDB [("t", "2.0"), ("t", "1.0")]) "t"
        = ["2.0", "1.0"]
    ∧ (∀ r ∈ (applyVersionInserts emptyDB [("t", "2.0"), ("t", "1.0")]).versionRows,
        r.rowid = none)
    ∧ admissibleGetVersions
        (applyVersionInserts emptyDB [("t", "2.0"), ("t", "1.0")]) "t"
        ["1.0", "2.0"]
    ∧ getVersionsByIndex
        (applyVersionInserts emptyDB [("t", "2.0"), ("t", "1.0")]) "t"
        = ["1.0", "2.0"]
    ∧ (["1.0", "2.0"] : List String) ≠ ["2.0", "1.0"] := by
  refine ⟨rfl, by decide,
    ⟨[⟨none, "t", "1.0"⟩, ⟨none, "t", "2.0"⟩], by decide, by decide, rfl⟩,
    by decide, by decide⟩

/-- C9 amended: the version table's declared rowid column is NULL on every
stored row, so get_versions — whose ORDER BY sorts by that column — guarantees
no particular order: after any insert sequence its admissible results are
exactly the permutations of the technology's labels deduplicated in
first-occurrence order (the row content is right, the order is not
guaranteed), and the version-lexicographic order of the primary-key-index
plan is among the admissible results. -/
theorem c9_get_versions_order_unspecified (ops : List (String × String)) (t : String) :
    (∀ r ∈ (applyVersionInserts emptyDB ops).versionRows, r.rowid = none)
    ∧ (∀ result, admissibleGetVersions (applyVersionInserts emptyDB ops) t result
        ↔ result.Perm
            (firstOccurrence ((ops.filter (fun pr => pr.1 == t)).map (fun pr => pr.2))))
    ∧ admissibleGetVersions (applyVersionInserts emptyDB ops) t
        (getVersionsByIndex (applyVersionInserts emptyDB ops) t) := by
  have hnone : ∀ r ∈ (applyVersionInserts emptyDB ops).versionRows, r.rowid = none :=
    versionRows_rowid_none ops emptyDB (by intro r hr; simp [emptyDB] at hr)
  have hfo : getVersions (applyVersionInserts emptyDB ops) t
      = firstOccurrence ((ops.filter (fun pr => pr.1 == t)).map (fun pr => pr.2)) := by
    rw [applyVersionInserts_getVersions t ops emptyDB]
    rfl
  refine ⟨hnone, fun result => ?_, ?_⟩
  · rw [admissible_iff_perm _ _ hnone result, hfo]
  · rw [admissible_iff_perm _ _ hnone]
    exact List.perm_insertionSort (fun a b => strLeB a b = true)
      (getVersions (applyVersionInserts emptyDB ops) t)

end HTP
